import Mathlib

/-!
Shallow embedding of the curseradio OPML tree model
(src/curseradio/curseradio.py): the node hierarchy, the document codec
(`OPMLNode.from_element` / `to_element` / `from_xml`), the flattening
visitor, the favourites store, and the browser's `move` viewport logic.

Python strings are modelled as lists of characters, attribute
dictionaries as association lists in insertion order, and the fallible
parts of the code (KeyError, ValueError, AssertionError,
UnboundLocalError, network failures) as `Except` values.
-/

/-- Python `str`, modelled as a list of characters. -/
abbrev Str := List Char

/-- Python `dict[str, str]` in insertion order (keys unique in any
real attribute dictionary). -/
abbrev Attr := List (Str × Str)

def strURL : Str := "URL".data
def strType : Str := "type".data
def strText : Str := "text".data
def strOutline : Str := "outline".data
def strLink : Str := "link".data
def strAudio : Str := "audio".data

/-- `d[k]` / `d.get(k)`: value of the first binding of `k`. -/
def lookupA (a : Attr) (k : Str) : Option Str :=
  (a.find? (fun p => p.1 == k)).map (fun p => p.2)

/-- `d[k] = v` for a Python dict: replace the first binding of `k` in
place (position preserved); append at the end when `k` is absent. -/
def setA : Attr → Str → Str → Attr
  | [], k, v => [(k, v)]
  | p :: rest, k, v =>
      if p.1 == k then (k, v) :: rest else p :: setA rest k v

example : lookupA [("a".data, "x".data)] "a".data = some "x".data := by decide
example : setA [("a".data, "x".data)] "a".data "y".data = [("a".data, "y".data)] := by decide
example : "http://".data = ['h', 't', 't', 'p', ':', '/', '/'] := rfl

/-- An OPML `<outline>` element as seen by the code: its attribute
dictionary (`element.attrib`, which includes `text`) and its nested
`<outline>` children.  Directory documents nest only `<outline>`
elements, so `len(element)` and `element.xpath('./outline')` both see
exactly `children`. -/
inductive Elem where
  | mk (attribs : Attr) (children : List Elem)

def Elem.attribs : Elem → Attr
  | .mk a _ => a

def Elem.childrenE : Elem → List Elem
  | .mk _ cs => cs

/-- Python `int(s)`: an optional sign followed by at least one digit
(the cases occurring in directory documents). `none` models
`ValueError`. -/
def pyInt (s : Str) : Option Int :=
  let digits (ds : Str) : Option Int :=
    if ds = [] ∨ ¬ ds.all Char.isDigit then none
    else some (ds.foldl (fun n c => 10 * n + (c.toNat - 48)) (0 : Int))
  match s with
  | '-' :: rest => (digits rest).map (fun n => -n)
  | '+' :: rest => digits rest
  | _ => digits s

example : pyInt "128".data = some 128 := by decide
example : pyInt "-7".data = some (-7) := by decide
example : pyInt "".data = none := by decide
example : pyInt "12a".data = none := by decide

/--
The polymorphic node hierarchy.  Fields mirror the Python attributes:
`outline` is `OPMLOutline` (`collapsed`, default `True`), `link` is
`OPMLOutlineLink` (`url = attr['URL']`, `ready`, default `False`, plus
the inherited `collapsed`), `audio` is `OPMLAudio` (`url`, `bitrate`,
`reliability`, `formats`, `secondary`), `favourites` is
`OPMLFavourites` (fixed text "Favourites" and empty attr, plus
`dirty`).
-/
inductive OPMLNode where
  | outline (text : Option Str) (attr : Attr) (children : List OPMLNode) (collapsed : Bool)
  | link (text : Option Str) (attr : Attr) (url : Str) (children : List OPMLNode)
      (ready : Bool) (collapsed : Bool)
  | audio (text : Option Str) (attr : Attr) (url : Str) (bitrate : Int)
      (reliability : Int) (formats : Str) (secondary : Str)
  | favourites (children : List OPMLNode) (collapsed : Bool) (dirty : Bool)

/-- The `URL` scheme-upgrade applied in `OPMLNode.from_element`:
`if 'URL' in attr and (url := attr['URL']).startswith('http://'):
attr['URL'] = f'\x7burl[:4]\x7ds\x7burl[4:]\x7d'`. -/
def upgradeAttr (attr : Attr) : Attr :=
  match lookupA attr strURL with
  | some url =>
      if "http://".data.isPrefixOf url then
        setA attr strURL (url.take 4 ++ 's' :: url.drop 4)
      else attr
  | none => attr

mutual
/-- Recursive application of the scheme-upgrade to a whole element
tree (the round-trip claims compare serialization output against
this). -/
def upgradeElem : Elem → Elem
  | .mk a cs => .mk (upgradeAttr a) (upgradeElems cs)
def upgradeElems : List Elem → List Elem
  | [] => []
  | e :: es => upgradeElem e :: upgradeElems es
end

mutual
/--
`OPMLNode.from_element`, faithfully including its failure modes as
`Except` errors:
* `KeyError` from `OPMLOutlineLink.__init__` / `OPMLAudio.__init__`
  reading `attr['URL']`;
* `ValueError` from `int(...)` on `bitrate`/`reliability`;
* `AssertionError` from `assert len(element) == 0`;
* `UnboundLocalError` from `return node` when no branch assigned
  `node` (type absent with no children, or an unrecognized type).
-/
def from_element : Elem → Except Str OPMLNode
  | .mk attribs children =>
    let text := lookupA attribs strText
    let attr := upgradeAttr attribs
    let type0 := lookupA attr strType
    let type1 := if (type0 = none ∧ children.length > 0) ∨ type0 = some strText
      then some strOutline else type0
    if type1 = some strOutline then
      match from_elements children with
      | .ok cs => .ok (.outline text attr cs true)
      | .error e => .error e
    else if type1 = some strLink then
      match lookupA attr strURL with
      | some url =>
          if children.length = 0 then .ok (.link text attr url [] false true)
          else .error "AssertionError".data
      | none => .error "KeyError".data
    else if type1 = some strAudio then
      match lookupA attr strURL with
      | some url =>
          match (match lookupA attr "bitrate".data with
                 | some s => pyInt s
                 | none => some 0),
                (match lookupA attr "reliability".data with
                 | some s => pyInt s
                 | none => some 0) with
          | some bitrate, some reliability =>
              let formats := (lookupA attr "formats".data).getD []
              let secondary :=
                match lookupA attr "current_track".data with
                | some s => s
                | none => (lookupA attr "subtext".data).getD []
              if children.length = 0 then
                .ok (.audio text attr url bitrate reliability formats secondary)
              else .error "AssertionError".data
          | _, _ => .error "ValueError".data
      | none => .error "KeyError".data
    else .error "UnboundLocalError".data
def from_elements : List Elem → Except Str (List OPMLNode)
  | [] => .ok []
  | e :: es =>
      match from_element e with
      | .ok n =>
          match from_elements es with
          | .ok ns => .ok (n :: ns)
          | .error msg => .error msg
      | .error msg => .error msg
end

/-- `OPMLNode.from_xml` after a successful fetch: the document is the
list of `/opml/body/outline` elements; the result is the fake parent
`cls(text="", attr={})` (an `OPMLOutline` when called as
`OPMLOutline.from_xml`) with `children` parsed from the document.  A
child that raises makes the whole load raise. -/
def from_xml (doc : List Elem) : Except Str OPMLNode :=
  match from_elements doc with
  | .ok cs => .ok (.outline (some []) [] cs true)
  | .error msg => .error msg

mutual
/-- `OPMLNode.to_element` / `OPMLOutline.to_element`: an `<outline>`
element carrying `self.attr`, with children serialized recursively for
branch variants (`OPMLAudio` uses the childless base method;
`OPMLFavourites` has `attr = \x7b\x7d`). -/
def to_element : OPMLNode → Elem
  | .outline _ attr cs _ => .mk attr (to_elements cs)
  | .link _ attr _ cs _ _ => .mk attr (to_elements cs)
  | .audio _ attr _ _ _ _ _ => .mk attr []
  | .favourites cs _ _ => .mk [] (to_elements cs)
def to_elements : List OPMLNode → List Elem
  | [] => []
  | n :: ns => to_element n :: to_elements ns
end

mutual
/-- `OPMLNode.flatten` / `OPMLOutline.flatten`: append `(self, depth)`
to the accumulator `result`; branch variants then recurse into each
child at `depth+1` unless `collapsed` (`OPMLAudio` uses the childless
base method; `OPMLOutlineLink` and `OPMLFavourites` inherit
`OPMLOutline.flatten`). -/
def flatten : OPMLNode → List (OPMLNode × Nat) → Nat → List (OPMLNode × Nat)
  | .audio t a u b r f s, result, depth => result ++ [(.audio t a u b r f s, depth)]
  | .outline t a cs c, result, depth =>
      let res := result ++ [(.outline t a cs c, depth)]
      if c then res else flattenList cs res (depth + 1)
  | .link t a u cs rd c, result, depth =>
      let res := result ++ [(.link t a u cs rd c, depth)]
      if c then res else flattenList cs res (depth + 1)
  | .favourites cs c d, result, depth =>
      let res := result ++ [(.favourites cs c d, depth)]
      if c then res else flattenList cs res (depth + 1)
def flattenList : List OPMLNode → List (OPMLNode × Nat) → Nat → List (OPMLNode × Nat)
  | [], result, _ => result
  | n :: ns, result, depth => flattenList ns (flatten n result depth) depth
end

/-- `self.leaf` as set by the constructors: `True` for `OPMLAudio`,
`False` for the branch variants. -/
def OPMLNode.leaf : OPMLNode → Bool
  | .audio _ _ _ _ _ _ _ => true
  | _ => false

/-- The `collapsed` flag (an `OPMLAudio` has none; it is returned as
`true` so that `leaf ∨ collapsed` means "contributes only itself"). -/
def OPMLNode.collapsedF : OPMLNode → Bool
  | .outline _ _ _ c => c
  | .link _ _ _ _ _ c => c
  | .favourites _ c _ => c
  | .audio _ _ _ _ _ _ _ => true

def OPMLNode.childrenN : OPMLNode → List OPMLNode
  | .outline _ _ cs _ => cs
  | .link _ _ _ cs _ _ => cs
  | .favourites cs _ _ => cs
  | .audio _ _ _ _ _ _ _ => []

mutual
/-- The flattened row list exactly as the spec words it: a collapsed
branch or any leaf contributes only its own `(node, depth)` row; an
expanded branch contributes its own row followed by each child's rows
at `depth + 1`, depth-first and pre-order. -/
def specRows : OPMLNode → Nat → List (OPMLNode × Nat)
  | .audio t a u b r f s, depth => [(.audio t a u b r f s, depth)]
  | .outline t a cs c, depth =>
      if c then [(.outline t a cs c, depth)]
      else (.outline t a cs c, depth) :: specRowsList cs (depth + 1)
  | .link t a u cs rd c, depth =>
      if c then [(.link t a u cs rd c, depth)]
      else (.link t a u cs rd c, depth) :: specRowsList cs (depth + 1)
  | .favourites cs c d, depth =>
      if c then [(.favourites cs c d, depth)]
      else (.favourites cs c d, depth) :: specRowsList cs (depth + 1)
def specRowsList : List OPMLNode → Nat → List (OPMLNode × Nat)
  | [], _ => []
  | n :: ns, depth => specRows n depth ++ specRowsList ns depth
end

/-- An item yielded by a node's `activate` generator: a progress
string, or the command list handed to the player. -/
inductive Event where
  | msg (s : Str)
  | play (cmd : List Str)

/-- The mutable fields of an `OPMLOutlineLink` that `activate`
touches. -/
structure LinkState where
  url : Str
  children : List OPMLNode
  ready : Bool
  collapsed : Bool

/--
`OPMLOutlineLink.activate`, with the network/parse side effect of
`OPMLOutline.from_xml(self.url)` supplied as `fetch` (`.ok` carries
the fake root's children, `.error` a raised exception).  The result is
the list of yielded events, the node state afterwards, and whether an
exception escaped the generator (the code has no handler anywhere up
through `OPMLBrowser.enter` and `interact`, so `true` means the
process crashes).  On a fetch failure the exception is raised before
`self.children`, `self.ready` and `self.collapsed` are assigned, so
the state is returned unchanged.
-/
def activateLink (st : LinkState) (fetch : Except Str (List OPMLNode)) :
    List Event × LinkState × Bool :=
  if st.ready then ([], { st with collapsed := !st.collapsed }, false)
  else
    match fetch with
    | .error _ => ([.msg ("Loading ".data ++ st.url)], st, true)
    | .ok cs =>
        ([.msg ("Loading ".data ++ st.url), .msg "Loading... done".data],
         { st with children := cs, ready := true, collapsed := !st.collapsed }, false)

/-- Python `s.split("\n")[0]`. -/
def firstLine (s : Str) : Str := s.takeWhile (fun c => c ≠ '\n')

/-- `OPMLAudio.activate`, with `requests.get(self.url).text` supplied
as `fetch`. -/
def activateAudio (_url : Str) (fetch : Except Str Str) : List Event × Bool :=
  match fetch with
  | .error _ => ([.msg "Fetching playlist".data], true)
  | .ok body => ([.msg "Fetching playlist".data, .play [firstLine body]], false)

/-- The favourites store: its member list and dirty flag.  Python's
`in` and `list.remove` compare `OPMLNode` objects by reference
identity (no `__eq__` is defined), so members are modelled as opaque
identity tokens `α`. -/
structure Favs (α : Type) where
  children : List α
  dirty : Bool

/-- `OPMLFavourites.toggle`: set `dirty`; remove `other` if present
(`list.remove` drops the first occurrence), else append it. -/
def toggle {α : Type} [DecidableEq α] (f : Favs α) (other : α) : Favs α :=
  let f1 : Favs α := { f with dirty := true }
  if other ∈ f1.children then { f1 with children := f1.children.erase other }
  else { f1 with children := f1.children ++ [other] }

/-- `OPMLFavourites.to_xml`: no element for the favourites object
itself; its children become the document's top-level elements. -/
def favourites_to_xml (cs : List OPMLNode) : List Elem := to_elements cs

/-- The navigation state of `OPMLBrowser`: the flattened row list and
the `top`/`cursor`/`maxy` indices (Python ints), plus `selected`. -/
structure Browser where
  flat : List (OPMLNode × Nat)
  top : Int
  cursor : Int
  maxy : Int
  selected : OPMLNode

/-- Python list indexing `xs[i]`, including negative-index wrap-around;
`none` models `IndexError`. -/
def pyGet {α : Type} (xs : List α) (i : Int) : Option α :=
  if 0 ≤ i then xs.get? i.toNat
  else if 0 ≤ (xs.length : Int) + i then xs.get? ((xs.length : Int) + i).toNat
  else none

/-- Python slicing `xs[0:t]` (a negative `t` counts from the end). -/
def pySliceTo {α : Type} (xs : List α) (t : Int) : List α :=
  if 0 ≤ t then xs.take t.toNat
  else xs.take (max ((xs.length : Int) + t) 0).toNat

/-- The `to == "parent"` loop of `OPMLBrowser.move`, iterating over
the reversed rows of `self.flat[0:target]`:
each iteration with `target >= 0` decrements `target` and breaks when
that row's depth equals `cdepth - 1`. -/
def parentLoop : List Int → Int → Int → Int
  | [], _, target => target
  | d :: rest, cdepth, target =>
      if 0 ≤ target then
        if d = cdepth - 1 then target - 1 else parentLoop rest cdepth (target - 1)
      else parentLoop rest cdepth target

/-- The four ways `OPMLBrowser.move` is invoked. -/
inductive MoveArg where
  | relArg (r : Int)
  | toStart
  | toEnd
  | toParent

/-- The `target` computed by the first half of `OPMLBrowser.move`
before clamping (`none` models the `IndexError` of
`self.flat[target][1]` in the `parent` branch). -/
def rawTarget (b : Browser) (arg : MoveArg) : Option Int :=
  match arg with
  | .relArg r => some (b.top + b.cursor + r)
  | .toStart => some 0
  | .toEnd => some ((b.flat.length : Int) - 1)
  | .toParent =>
      let t0 := b.top + b.cursor
      match pyGet b.flat t0 with
      | none => none
      | some row =>
          let showdepths := ((pySliceTo b.flat t0).map (fun r => (r.2 : Int))).reverse
          some (parentLoop showdepths (row.2 : Int) t0)

/-- `OPMLBrowser.move` (lines 365-398): compute `target`, clamp it to
`[0, len(flat)-1]`, set `selected = flat[target][0]`, then reconcile
the viewport:
`target < top` scrolls up; `target > top + maxy - 1` scrolls down
leaving the cursor at `maxy - 2`; otherwise only the cursor moves. -/
def move (b : Browser) (arg : MoveArg) : Option Browser :=
  match rawTarget b arg with
  | none => none
  | some t0 =>
      let t1 := min t0 ((b.flat.length : Int) - 1)
      let target := max t1 0
      match pyGet b.flat target with
      | none => none
      | some row =>
          if target < b.top then
            some { b with selected := row.1, top := target, cursor := 0 }
          else if target > b.top + b.maxy - 1 then
            some { b with selected := row.1,
                          top := target - (b.maxy - 2), cursor := b.maxy - 2 }
          else
            some { b with selected := row.1, cursor := target - b.top }

/-- Structural induction for `Elem` with the induction hypothesis
available for every member of the child list. -/
theorem elemStrongInd (P : Elem → Prop)
    (h : ∀ a cs, (∀ c ∈ cs, P c) → P (.mk a cs)) : ∀ e, P e
  | .mk a cs => h a cs (fun c hc => elemStrongInd P h c)
termination_by e => sizeOf e
decreasing_by
  simp only [Elem.mk.sizeOf_spec]
  have h2 := List.sizeOf_lt_of_mem hc
  omega

/-- Structural induction for `OPMLNode` with the induction hypothesis
available for every member of a branch's child list. -/
theorem nodeStrongInd (P : OPMLNode → Prop)
    (h1 : ∀ t a cs c, (∀ x ∈ cs, P x) → P (.outline t a cs c))
    (h2 : ∀ t a u cs rd c, (∀ x ∈ cs, P x) → P (.link t a u cs rd c))
    (h3 : ∀ t a u b r f s, P (.audio t a u b r f s))
    (h4 : ∀ cs c d, (∀ x ∈ cs, P x) → P (.favourites cs c d)) : ∀ n, P n
  | .outline t a cs c => h1 t a cs c (fun x hx => nodeStrongInd P h1 h2 h3 h4 x)
  | .link t a u cs rd c => h2 t a u cs rd c (fun x hx => nodeStrongInd P h1 h2 h3 h4 x)
  | .audio t a u b r f s => h3 t a u b r f s
  | .favourites cs c d => h4 cs c d (fun x hx => nodeStrongInd P h1 h2 h3 h4 x)
termination_by n => sizeOf n
decreasing_by
  all_goals simp only [OPMLNode.outline.sizeOf_spec, OPMLNode.link.sizeOf_spec,
    OPMLNode.favourites.sizeOf_spec]
  all_goals have h5 := List.sizeOf_lt_of_mem hx
  all_goals omega

theorem flattenList_shift : ∀ l : List OPMLNode,
    (∀ x ∈ l, ∀ res d, flatten x res d = res ++ flatten x [] d) →
    ∀ res res2 d, flattenList l (res ++ res2) d = res ++ flattenList l res2 d := by
  intro l
  induction l with
  | nil => intro _ res res2 d; simp [flattenList]
  | cons x xs ih =>
      intro hl res res2 d
      have hx := hl x (List.mem_cons_self x xs)
      have hxs : ∀ y ∈ xs, ∀ res d, flatten y res d = res ++ flatten y [] d :=
        fun y hy => hl y (List.mem_cons_of_mem x hy)
      calc flattenList (x :: xs) (res ++ res2) d
          = flattenList xs (flatten x (res ++ res2) d) d := by simp only [flattenList]
        _ = flattenList xs (res ++ flatten x res2 d) d := by
              rw [hx (res ++ res2) d, hx res2 d, List.append_assoc]
        _ = res ++ flattenList xs (flatten x res2 d) d := ih hxs res _ d
        _ = res ++ flattenList (x :: xs) res2 d := by simp only [flattenList]

/-- `flatten` only ever appends to its accumulator. -/
theorem flatten_append (n : OPMLNode) : ∀ res d, flatten n res d = res ++ flatten n [] d := by
  induction n using nodeStrongInd with
  | h3 t a u b r f s => intro res d; simp [flatten]
  | h1 t a cs c ih =>
      intro res d
      by_cases hc : c
      · simp [flatten, hc]
      · simp only [flatten, hc, if_false, Bool.false_eq_true]
        rw [flattenList_shift cs ih res _ (d + 1)]
        simp
  | h2 t a u cs rd c ih =>
      intro res d
      by_cases hc : c
      · simp [flatten, hc]
      · simp only [flatten, hc, if_false, Bool.false_eq_true]
        rw [flattenList_shift cs ih res _ (d + 1)]
        simp
  | h4 cs c dd ih =>
      intro res d
      by_cases hc : c
      · simp [flatten, hc]
      · simp only [flatten, hc, if_false, Bool.false_eq_true]
        rw [flattenList_shift cs ih res _ (d + 1)]
        simp

theorem flattenList_append (l : List OPMLNode) (res : List (OPMLNode × Nat)) (d : Nat) :
    flattenList l res d = res ++ flattenList l [] d := by
  calc flattenList l res d = flattenList l (res ++ []) d := by rw [List.append_nil]
    _ = res ++ flattenList l [] d := flattenList_shift l (fun x _ => flatten_append x) res [] d

theorem flattenList_eq_spec : ∀ l : List OPMLNode,
    (∀ x ∈ l, ∀ d, flatten x [] d = specRows x d) →
    ∀ d, flattenList l [] d = specRowsList l d := by
  intro l
  induction l with
  | nil => intro _ d; simp [flattenList, specRowsList]
  | cons x xs ih =>
      intro hl d
      have hx := hl x (List.mem_cons_self x xs)
      have hxs : ∀ y ∈ xs, ∀ d, flatten y [] d = specRows y d :=
        fun y hy => hl y (List.mem_cons_of_mem x hy)
      calc flattenList (x :: xs) [] d = flattenList xs (flatten x [] d) d := by
              simp only [flattenList]
        _ = flatten x [] d ++ flattenList xs [] d := flattenList_append xs _ d
        _ = specRows x d ++ specRowsList xs d := by rw [hx d, ih hxs d]
        _ = specRowsList (x :: xs) d := by simp only [specRowsList]

theorem flatten_eq_specRows (n : OPMLNode) : ∀ d, flatten n [] d = specRows n d := by
  induction n using nodeStrongInd with
  | h3 t a u b r f s => intro d; simp [flatten, specRows]
  | h1 t a cs c ih =>
      intro d
      by_cases hc : c
      · simp [flatten, specRows, hc]
      · simp only [flatten, specRows, hc, if_false, Bool.false_eq_true, List.nil_append]
        rw [flattenList_append cs _ (d + 1), flattenList_eq_spec cs ih (d + 1)]
        simp
  | h2 t a u cs rd c ih =>
      intro d
      by_cases hc : c
      · simp [flatten, specRows, hc]
      · simp only [flatten, specRows, hc, if_false, Bool.false_eq_true, List.nil_append]
        rw [flattenList_append cs _ (d + 1), flattenList_eq_spec cs ih (d + 1)]
        simp
  | h4 cs c dd ih =>
      intro d
      by_cases hc : c
      · simp [flatten, specRows, hc]
      · simp only [flatten, specRows, hc, if_false, Bool.false_eq_true, List.nil_append]
        rw [flattenList_append cs _ (d + 1), flattenList_eq_spec cs ih (d + 1)]
        simp

theorem specRows_head (n : OPMLNode) (d : Nat) : (specRows n d).head? = some (n, d) := by
  cases n <;> simp only [specRows] <;> (try split) <;> simp

def c1child : OPMLNode := .audio none [] [] 0 0 [] []

def c1root : OPMLNode := .outline none [] [c1child] false

/-- C1, counterexample to the claim as stated: the browser computes
`self.flat = self.root.flatten([])`, and `flatten` emits the node it
is called on, so for an expanded root with a single child the row list
is `[(root, 0), (child, 1)]` — the root itself IS emitted, the depth-0
row is the root's own row, not the child's, and the child sits at
depth 1, contradicting "the root is never itself emitted, so the
depth-0 rows are exactly the root's children's rows" (which would
predict `[(child, 0)]`). -/
theorem c1_counterexample :
    flatten c1root [] 0 = [(c1root, 0), (c1child, 1)] ∧
    c1root ≠ c1child ∧
    flatten c1root [] 0 ≠ [(c1child, 0)] := by
  refine ⟨rfl, fun h => OPMLNode.noConfusion h, fun h => ?_⟩
  rw [show flatten c1root [] 0 = [(c1root, 0), (c1child, 1)] from rfl] at h
  have h2 := congrArg List.length h
  simp at h2

/-- C1 (amended): `flatten(node)` produces the depth-first, pre-order,
collapse-aware row list in which the node it is called on is itself
emitted as the first row at its own depth: a collapsed branch or any
leaf contributes exactly its own `(node, depth)` row and nothing
below it, and an expanded branch contributes its own row followed by
each child's rows at `depth + 1`.  In particular the root appears as
row 0 at depth 0 and its children's rows start at depth 1 (the
accumulator-passing `flatten` refines the direct recursion
`specRows`). -/
theorem c1_flatten_rows (n : OPMLNode) (d : Nat) :
    flatten n [] d = specRows n d ∧ (flatten n [] d).head? = some (n, d) := by
  refine ⟨flatten_eq_specRows n d, ?_⟩
  rw [flatten_eq_specRows n d]
  exact specRows_head n d

theorem roundtrip_list : ∀ cs : List Elem,
    (∀ c ∈ cs, ∀ n, from_element c = .ok n → to_element n = upgradeElem c) →
    ∀ ns, from_elements cs = .ok ns → to_elements ns = upgradeElems cs := by
  intro cs
  induction cs with
  | nil =>
      intro _ ns h
      simp only [from_elements] at h
      injection h with h
      subst h
      rfl
  | cons e es ih =>
      intro hcs ns h
      simp only [from_elements] at h
      cases he : from_element e with
      | error msg => rw [he] at h; exact absurd h (by simp)
      | ok n =>
          rw [he] at h
          cases hes : from_elements es with
          | error msg => rw [hes] at h; exact absurd h (by simp)
          | ok ns2 =>
              rw [hes] at h
              injection h with h
              subst h
              have h1 := hcs e (List.mem_cons_self e es) n he
              have h2 := ih (fun c hc => hcs c (List.mem_cons_of_mem e hc)) ns2 hes
              simp only [to_elements, upgradeElems, h1, h2]

/-- Per-element round trip: a successful parse serializes back to the
original element with the scheme-upgrade applied, every attribute and
all nesting preserved. -/
theorem roundtrip_element : ∀ e : Elem, ∀ n, from_element e = .ok n → to_element n = upgradeElem e := by
  intro e
  induction e using elemStrongInd with
  | h a cs ih =>
      intro n hn
      simp only [from_element] at hn
      split at hn
      · -- implicit outline (no type with children, or type="text")
        cases hcs : from_elements cs with
        | error msg => rw [hcs] at hn; exact absurd hn (by simp)
        | ok ns =>
            rw [hcs] at hn
            injection hn with hn
            subst hn
            simp only [to_element, upgradeElem]
            rw [roundtrip_list cs ih ns hcs]
      · split at hn
        · -- explicit type="outline"
          cases hcs : from_elements cs with
          | error msg => rw [hcs] at hn; exact absurd hn (by simp)
          | ok ns =>
              rw [hcs] at hn
              injection hn with hn
              subst hn
              simp only [to_element, upgradeElem]
              rw [roundtrip_list cs ih ns hcs]
        · split at hn
          · -- type="link"
            split at hn
            · by_cases hlen : cs.length = 0
              · rw [if_pos hlen] at hn
                injection hn with hn
                subst hn
                have hcs : cs = [] := List.length_eq_zero.mp hlen
                subst hcs
                rfl
              · rw [if_neg hlen] at hn
                exact absurd hn (by simp)
            · exact absurd hn (by simp)
          · split at hn
            · -- type="audio"
              split at hn
              · split at hn
                · by_cases hlen : cs.length = 0
                  · rw [if_pos hlen] at hn
                    injection hn with hn
                    subst hn
                    have hcs : cs = [] := List.length_eq_zero.mp hlen
                    subst hcs
                    rfl
                  · rw [if_neg hlen] at hn
                    exact absurd hn (by simp)
                · exact absurd hn (by simp)
              · exact absurd hn (by simp)
            · -- no branch assigned node: UnboundLocalError
              exact absurd hn (by simp)

/-- C3: for every directory document `doc` that parses successfully,
serializing the parsed tree reproduces the document: the synthetic
container parses to a node whose serialization is an attribute-less
element whose children are exactly the elements of `doc`, with every
attribute and all nesting preserved, the only change being the
one-time URL scheme-upgrade (`upgradeElems`). -/
theorem c3_roundtrip (doc : List Elem) (root : OPMLNode)
    (h : from_xml doc = .ok root) :
    to_element root = Elem.mk [] (upgradeElems doc) := by
  simp only [from_xml] at h
  cases hcs : from_elements doc with
  | error msg => rw [hcs] at h; exact absurd h (by simp)
  | ok ns =>
      rw [hcs] at h
      injection h with h
      subst h
      simp only [to_element]
      rw [roundtrip_list doc (fun c _ => roundtrip_element c) ns hcs]

def c3doc : List Elem :=
  [.mk [(strType, strText)] [],
   .mk [(strText, "BBC".data), (strType, strAudio), (strURL, "http://x/stream.pls".data),
        ("bitrate".data, "128".data)] []]

def c3root : OPMLNode :=
  .outline (some []) []
    [.outline none [(strType, strText)] [] true,
     .audio (some "BBC".data)
        [(strText, "BBC".data), (strType, strAudio), (strURL, "https://x/stream.pls".data),
         ("bitrate".data, "128".data)]
        "https://x/stream.pls".data 128 0 [] []] true

theorem c3_roundtrip_witness :
    from_xml c3doc = .ok c3root ∧ to_element c3root = Elem.mk [] (upgradeElems c3doc) :=
  ⟨rfl, c3_roundtrip c3doc c3root rfl⟩

theorem lookup_setA_self (a : Attr) (k v : Str) : lookupA (setA a k v) k = some v := by
  induction a with
  | nil => simp [setA, lookupA]
  | cons p rest ih =>
      by_cases hp : p.1 = k
      · simp [setA, lookupA, hp]
      · have hbeq : (p.1 == k) = false := beq_eq_false_iff_ne.mpr hp
        simp only [setA, hbeq, if_false, Bool.false_eq_true]
        simp only [lookupA, List.find?, hbeq] at ih ⊢
        exact ih

theorem lookup_setA_ne (a : Attr) (k v k2 : Str) (h : k2 ≠ k) :
    lookupA (setA a k v) k2 = lookupA a k2 := by
  induction a with
  | nil =>
      have hbeq : (k == k2) = false := beq_eq_false_iff_ne.mpr (Ne.symm h)
      simp [setA, lookupA, hbeq]
  | cons p rest ih =>
      by_cases hp : p.1 = k
      · have hbeq : (p.1 == k) = true := beq_iff_eq.mpr hp
        have hk2 : (k == k2) = false := beq_eq_false_iff_ne.mpr (Ne.symm h)
        have hp2 : (p.1 == k2) = false := by
          rw [hp]; exact hk2
        simp [setA, lookupA, hbeq, hk2, hp2, List.find?]
      · have hbeq : (p.1 == k) = false := beq_eq_false_iff_ne.mpr hp
        by_cases hq : p.1 = k2
        · have hq2 : (p.1 == k2) = true := beq_iff_eq.mpr hq
          simp [setA, lookupA, hbeq, hq2, List.find?]
        · have hq2 : (p.1 == k2) = false := beq_eq_false_iff_ne.mpr hq
          simp only [setA, hbeq, if_false, Bool.false_eq_true]
          simp only [lookupA, List.find?, hq2] at ih ⊢
          exact ih

/-- The `type` attribute is untouched by the scheme-upgrade (which
only assigns `attr['URL']`). -/
theorem lookup_upgrade_type (a : Attr) :
    lookupA (upgradeAttr a) strType = lookupA a strType := by
  unfold upgradeAttr
  split
  · split
    · exact lookup_setA_ne a strURL _ strType (by decide)
    · rfl
  · rfl

/-- `self.attr` of a node (empty for `OPMLFavourites`). -/
def OPMLNode.attrN : OPMLNode → Attr
  | .outline _ a _ _ => a
  | .link _ a _ _ _ _ => a
  | .audio _ a _ _ _ _ _ => a
  | .favourites _ _ _ => []

/-- When the `URL` attribute does not carry the insecure scheme, the
upgrade leaves the dictionary untouched. -/
theorem upgradeAttr_noop (b : Attr) (u : Str) (hu : lookupA b strURL = some u)
    (hp : ("http://".data).isPrefixOf u = false) : upgradeAttr b = b := by
  unfold upgradeAttr
  rw [hu]
  simp [hp]

/-- C5: at construction (parse) time a `URL` attribute using the
insecure scheme `http://` is rewritten by replacing its four-character
prefix `http` with the five-character prefix `https` (the code keeps
`url[:4]` and inserts `'s'`); the upgrade is idempotent — applying
`upgradeAttr` to the already-upgraded dictionary changes nothing — and
serialization (`to_element`) emits `self.attr` verbatim, so the
upgrade is not re-applied there. -/
theorem c5_scheme_upgrade (a : Attr) (r : Str)
    (h : lookupA a strURL = some ("http://".data ++ r)) :
    lookupA (upgradeAttr a) strURL = some ("https://".data ++ r)
    ∧ upgradeAttr (upgradeAttr a) = upgradeAttr a
    ∧ ∀ n : OPMLNode, (to_element n).attribs = n.attrN := by
  have hpre : ("http://".data).isPrefixOf ("http://".data ++ r) = true :=
    List.isPrefixOf_iff_prefix.mpr (List.prefix_append _ r)
  have hval : ("http://".data ++ r).take 4 ++ 's' :: ("http://".data ++ r).drop 4
      = "https://".data ++ r := rfl
  have h1 : upgradeAttr a = setA a strURL ("https://".data ++ r) := by
    unfold upgradeAttr
    rw [h]
    simp only [hpre, if_true, hval]
  have h2 : lookupA (upgradeAttr a) strURL = some ("https://".data ++ r) := by
    rw [h1]; exact lookup_setA_self a strURL _
  refine ⟨h2, ?_, ?_⟩
  · have hp : ("http://".data).isPrefixOf ("https://".data ++ r) = false := rfl
    exact upgradeAttr_noop (upgradeAttr a) _ h2 hp
  · intro n
    cases n <;> rfl

theorem c5_scheme_upgrade_witness :
    lookupA [(strURL, "http://x".data)] strURL = some ("http://".data ++ "x".data) ∧
    (lookupA (upgradeAttr [(strURL, "http://x".data)]) strURL
        = some ("https://".data ++ "x".data)
      ∧ upgradeAttr (upgradeAttr [(strURL, "http://x".data)])
          = upgradeAttr [(strURL, "http://x".data)]
      ∧ ∀ n : OPMLNode, (to_element n).attribs = n.attrN) :=
  ⟨rfl, c5_scheme_upgrade [(strURL, "http://x".data)] "x".data rfl⟩

theorem from_elements_split : ∀ (l1 : List Elem) (e : Elem) (l2 : List Elem) (msg : Str),
    from_element e = .error msg → ∀ ns, from_elements (l1 ++ e :: l2) ≠ .ok ns := by
  intro l1
  induction l1 with
  | nil =>
      intro e l2 msg he ns h
      simp only [List.nil_append, from_elements, he] at h
      exact Except.noConfusion h
  | cons x xs ih =>
      intro e l2 msg he ns h
      simp only [List.cons_append, from_elements] at h
      split at h
      · split at h
        · rename_i ns2 heq2
          exact ih e l2 msg he ns2 heq2
        · exact Except.noConfusion h
      · exact Except.noConfusion h

/-- C10: an element whose `type` attribute is absent or unrecognized
(none of `outline`, `link`, `audio`, `text`) and which has no nested
entries falls through every branch of `from_element`, so `return node`
raises `UnboundLocalError`; `from_xml` does not catch it, so a
document containing such an element fails to parse entirely instead of
yielding a partial tree. -/
theorem c10_unknown_type (a : Attr)
    (h : lookupA a strType = none ∨
      ∃ t, lookupA a strType = some t
        ∧ t ≠ strOutline ∧ t ≠ strLink ∧ t ≠ strAudio ∧ t ≠ strText) :
    from_element (.mk a []) = .error "UnboundLocalError".data
    ∧ ∀ (pre post : List Elem) (root : OPMLNode),
        from_xml (pre ++ Elem.mk a [] :: post) ≠ .ok root := by
  have h1 : from_element (.mk a []) = .error "UnboundLocalError".data := by
    simp only [from_element, lookup_upgrade_type a]
    rcases h with hnone | ⟨t, ht, ht1, ht2, ht3, ht4⟩
    · simp [hnone]
    · simp [ht, ht1, ht2, ht3, ht4]
  refine ⟨h1, fun pre post root hok => ?_⟩
  simp only [from_xml] at hok
  cases hcs : from_elements (pre ++ Elem.mk a [] :: post) with
  | error m => rw [hcs] at hok; exact absurd hok (by simp)
  | ok ns => exact from_elements_split pre _ post _ h1 ns hcs

theorem c10_unknown_type_witness :
    from_element (.mk [] []) = .error "UnboundLocalError".data
    ∧ from_xml [Elem.mk [] []] ≠ .ok (.outline none [] [] true) := by
  obtain ⟨h1, h2⟩ := c10_unknown_type [] (Or.inl rfl)
  exact ⟨h1, h2 [] [] (.outline none [] [] true)⟩

/-- C4: activating an `OPMLOutlineLink` with `ready = True` (already
loaded) performs no fetch — the result does not depend on the fetch
outcome at all — yields no events, and only toggles `collapsed`;
moreover `ready` becomes true exactly on the first successful
activation (which also installs the fetched children) and once true
it stays true after any further activation. -/
theorem c4_loaded_idempotent (st : LinkState) (fetch fetch2 : Except Str (List OPMLNode))
    (h : st.ready = true) :
    activateLink st fetch = ([], { st with collapsed := !st.collapsed }, false)
    ∧ activateLink st fetch = activateLink st fetch2
    ∧ (activateLink st fetch).2.1.ready = true
    ∧ (∀ (st2 : LinkState) (cs : List OPMLNode), st2.ready = false →
        activateLink st2 (.ok cs)
          = ([.msg ("Loading ".data ++ st2.url), .msg "Loading... done".data],
             { st2 with children := cs, ready := true, collapsed := !st2.collapsed }, false))
    ∧ (∀ (st3 : LinkState) (f3 : Except Str (List OPMLNode)),
        st3.ready = true → (activateLink st3 f3).2.1.ready = true) := by
  refine ⟨by simp [activateLink, h], by simp [activateLink, h], by simp [activateLink, h],
    fun st2 cs h2 => by simp [activateLink, h2], fun st3 f3 h3 => by simp [activateLink, h3]⟩

theorem c4_loaded_idempotent_witness :
    activateLink ⟨"u".data, [], true, false⟩ (.error "e".data)
        = ([], { url := "u".data, children := [], ready := true, collapsed := true }, false)
    ∧ activateLink ⟨"u".data, [], true, false⟩ (.error "e".data)
        = activateLink ⟨"u".data, [], true, false⟩ (.ok [])
    ∧ (activateLink ⟨"u".data, [], true, false⟩ (.error "e".data)).2.1.ready = true := by
  obtain ⟨h1, h2, h3, _, _⟩ :=
    c4_loaded_idempotent ⟨"u".data, [], true, false⟩ (.error "e".data) (.ok []) rfl
  exact ⟨h1, h2, h3⟩

/-- C2 (the code at the failing input): activating a not-yet-loaded
`OPMLOutlineLink` whose fetch raises yields exactly one event — the
progress string "Loading <url>", not an error-class message — no
`PlayCommand`, leaves the node state unchanged (`ready` still false,
`children` still as before), and lets the exception escape
(`OPMLBrowser.enter` and `interact` have no handler, so the process
crashes instead of surfacing a message). -/
theorem c2_fetch_failure (st : LinkState) (msg : Str) (h : st.ready = false) :
    activateLink st (.error msg) = ([.msg ("Loading ".data ++ st.url)], st, true)
    ∧ (activateLink st (.error msg)).1.length = 1
    ∧ (∀ ev ∈ (activateLink st (.error msg)).1, ∀ cmd, ev ≠ Event.play cmd)
    ∧ (activateLink st (.error msg)).2.1 = st
    ∧ (activateLink st (.error msg)).2.2 = true := by
  have h1 : activateLink st (.error msg) = ([.msg ("Loading ".data ++ st.url)], st, true) := by
    simp [activateLink, h]
  refine ⟨h1, by simp [h1], ?_, by simp [h1], by simp [h1]⟩
  intro ev hev cmd
  rw [h1] at hev
  simp only [List.mem_singleton] at hev
  subst hev
  exact fun hc => Event.noConfusion hc

theorem c2_fetch_failure_witness :
    activateLink ⟨"u".data, [], false, true⟩ (.error "ConnectionError".data)
        = ([.msg ("Loading ".data ++ "u".data)],
           { url := "u".data, children := [], ready := false, collapsed := true }, true)
    ∧ (activateLink ⟨"u".data, [], false, true⟩ (.error "ConnectionError".data)).2.1
        = ⟨"u".data, [], false, true⟩
    ∧ (activateLink ⟨"u".data, [], false, true⟩ (.error "ConnectionError".data)).2.2 = true := by
  obtain ⟨h1, _, _, h4, h5⟩ :=
    c2_fetch_failure ⟨"u".data, [], false, true⟩ "ConnectionError".data rfl
  exact ⟨h1, h4, h5⟩

/-- C9: `toggle` sets `dirty = true` and removes `n` if present (first
occurrence, as `list.remove` does) else appends it; consequently, for
a store whose member list holds `n` at most once (the favourites
invariant — membership is by object identity and the list never
acquires duplicates), toggling twice restores the original membership
of every node, and `dirty` is true after both calls. -/
theorem c9_toggle {α : Type} [DecidableEq α] (f : Favs α) (n : α)
    (hdup : f.children.count n ≤ 1) :
    (toggle f n).dirty = true
    ∧ (n ∈ f.children → (toggle f n).children = f.children.erase n)
    ∧ (n ∉ f.children → (toggle f n).children = f.children ++ [n])
    ∧ (toggle (toggle f n) n).dirty = true
    ∧ (∀ m, m ∈ (toggle (toggle f n) n).children ↔ m ∈ f.children) := by
  by_cases hm : n ∈ f.children
  · have h1 : toggle f n = ⟨f.children.erase n, true⟩ := by
      simp [toggle, hm]
    have hcount : (f.children.erase n).count n = 0 := by
      rw [List.count_erase_self]
      have := List.count_pos_iff.mpr hm
      omega
    have hnm : n ∉ f.children.erase n := List.count_eq_zero.mp hcount
    have h2 : toggle (toggle f n) n = ⟨f.children.erase n ++ [n], true⟩ := by
      rw [h1]
      simp [toggle, hnm]
    refine ⟨by rw [h1], fun _ => by rw [h1], fun hc => absurd hm hc, by rw [h2], fun m => ?_⟩
    rw [h2]
    simp only [List.mem_append, List.mem_singleton]
    constructor
    · rintro (hme | hme)
      · by_cases hmn : m = n
        · subst hmn; exact hm
        · exact (List.mem_erase_of_ne hmn).mp hme
      · subst hme; exact hm
    · intro hmf
      by_cases hmn : m = n
      · exact Or.inr hmn
      · exact Or.inl ((List.mem_erase_of_ne hmn).mpr hmf)
  · have h1 : toggle f n = ⟨f.children ++ [n], true⟩ := by
      simp [toggle, hm]
    have h2 : toggle (toggle f n) n = ⟨f.children, true⟩ := by
      rw [h1]
      have hin : n ∈ f.children ++ [n] := by simp
      have herase : (f.children ++ [n]).erase n = f.children := by
        rw [List.erase_append_right [n] hm]
        simp [List.erase_cons_head]
      simp [toggle, hin, herase]
    refine ⟨by rw [h1], fun hc => absurd hc hm, fun _ => by rw [h1], by rw [h2],
      fun m => by rw [h2]⟩

theorem c9_toggle_witness :
    ([2, 5].count 2 ≤ 1)
    ∧ (toggle (⟨[2, 5], false⟩ : Favs Nat) 2).dirty = true
    ∧ (toggle (toggle (⟨[2, 5], false⟩ : Favs Nat) 2) 2).dirty = true
    ∧ (∀ m, m ∈ (toggle (toggle (⟨[2, 5], false⟩ : Favs Nat) 2) 2).children ↔ m ∈ [2, 5]) := by
  obtain ⟨h1, _, _, h4, h5⟩ := c9_toggle (⟨[2, 5], false⟩ : Favs Nat) 2 (by decide)
  exact ⟨by decide, h1, h4, h5⟩

/-- The viewport reconciliation exactly as the claim words it, with
the viewport height a parameter `vh`: a target above the window
scrolls up; a target below `topIndex + vh - 1` scrolls down leaving
the cursor at `vh - 2`; otherwise only the cursor moves. -/
def claimReconcile (top vh target : Int) : Int × Int :=
  if target < top then (target, 0)
  else if target > top + vh - 1 then (target - (vh - 2), vh - 2)
  else (top, target - top)

/-- The parent-target rule exactly as the claim words it: scan
backward from `target - 1` toward 0 and land on the first (nearest
preceding) row whose depth equals `currentDepth - 1`; if none exists,
the new target is 0. -/
def specParentTarget (depths : List Int) (cdepth : Int) : Nat → Int
  | 0 => 0
  | j + 1 => if depths.getD j 0 = cdepth - 1 then (j : Int) else specParentTarget depths cdepth j

theorem pyGet_pos {α : Type} (xs : List α) (i : Int) (h0 : 0 ≤ i)
    (h1 : i < (xs.length : Int)) :
    ∃ a, pyGet xs i = some a ∧ xs.get? i.toNat = some a := by
  have hlt : i.toNat < xs.length := by omega
  refine ⟨xs.get ⟨i.toNat, hlt⟩, ?_, List.get?_eq_get hlt⟩
  simp [pyGet, h0, List.get?_eq_get hlt]

/-- Full characterization of a successful `move`: the raw target is
clamped to `[0, len-1]`, the row there becomes `selected`, and
`top`/`cursor` are updated exactly by `claimReconcile` taken at
`vh = maxy` (the total screen height). -/
theorem move_char (b : Browser) (arg : MoveArg) (b2 : Browser) (h : move b arg = some b2) :
    ∃ t row, rawTarget b arg = some t ∧
      pyGet b.flat (max (min t ((b.flat.length : Int) - 1)) 0) = some row ∧
      b2.flat = b.flat ∧ b2.maxy = b.maxy ∧ b2.selected = row.1 ∧
      (b2.top, b2.cursor) = claimReconcile b.top b.maxy (max (min t ((b.flat.length : Int) - 1)) 0) := by
  simp only [move] at h
  split at h
  · exact absurd h (by simp)
  · rename_i t hraw
    split at h
    · exact absurd h (by simp)
    · rename_i row hrow
      refine ⟨t, row, hraw, hrow, ?_⟩
      split at h
      · rename_i hc1
        injection h with h
        subst h
        simp [claimReconcile, hc1]
      · split at h
        · rename_i hc1 hc2
          injection h with h
          subst h
          simp [claimReconcile, hc1, hc2]
        · rename_i hc1 hc2
          injection h with h
          subst h
          simp [claimReconcile, hc1, hc2]

theorem claimReconcile_sum (top vh target : Int) :
    (claimReconcile top vh target).1 + (claimReconcile top vh target).2 = target := by
  unfold claimReconcile
  split
  · simp
  · split <;> simp <;> omega

theorem claimReconcile_cursor_bounds (top vh target : Int) (hvh : 2 ≤ vh) :
    0 ≤ (claimReconcile top vh target).2 ∧ (claimReconcile top vh target).2 ≤ vh - 1 := by
  unfold claimReconcile
  split
  · exact ⟨by simp, by simp <;> omega⟩
  · split
    · exact ⟨by simp <;> omega, by simp <;> omega⟩
    · rename_i hc1 hc2
      exact ⟨by simp <;> omega, by simp <;> omega⟩

theorem move_isSome (b : Browser) (arg : MoveArg) (t : Int)
    (hraw : rawTarget b arg = some t) (hne : b.flat ≠ []) :
    ∃ b2, move b arg = some b2 := by
  have hlen : 0 < b.flat.length := List.length_pos.mpr hne
  have hlen2 : (1 : Int) ≤ (b.flat.length : Int) := by exact_mod_cast hlen
  have h0 : 0 ≤ max (min t ((b.flat.length : Int) - 1)) 0 := le_max_right _ _
  have h1 : max (min t ((b.flat.length : Int) - 1)) 0 < (b.flat.length : Int) := by
    refine max_lt_iff.mpr ⟨?_, by omega⟩
    calc min t ((b.flat.length : Int) - 1) ≤ (b.flat.length : Int) - 1 := min_le_right _ _
      _ < (b.flat.length : Int) := by omega
  obtain ⟨row, hrow, _⟩ := pyGet_pos b.flat _ h0 h1
  simp only [move, hraw, hrow]
  split
  · exact ⟨_, rfl⟩
  · split
    · exact ⟨_, rfl⟩
    · exact ⟨_, rfl⟩

/-- C8: for every non-empty row list and every delta (of arbitrary
magnitude and sign), `move(rel=delta)` succeeds and the selected index
`top + cursor` afterwards equals
`clamp(top + cursor + delta, 0, len(flat) - 1)` — in particular it
never leaves `[0, len(flat) - 1]` — and `selected` is the row stored
there. -/
theorem c8_move_relative (b : Browser) (r : Int) (hne : b.flat ≠ []) :
    ∃ b2, move b (.relArg r) = some b2
      ∧ b2.top + b2.cursor = max (min (b.top + b.cursor + r) ((b.flat.length : Int) - 1)) 0
      ∧ 0 ≤ b2.top + b2.cursor ∧ b2.top + b2.cursor ≤ (b.flat.length : Int) - 1
      ∧ ∃ row, pyGet b.flat (b2.top + b2.cursor) = some row ∧ b2.selected = row.1 := by
  have hlen : 0 < b.flat.length := List.length_pos.mpr hne
  have hlen2 : (1 : Int) ≤ (b.flat.length : Int) := by exact_mod_cast hlen
  obtain ⟨b2, hb2⟩ := move_isSome b (.relArg r) (b.top + b.cursor + r) rfl hne
  obtain ⟨t, row, hraw, hrow, hflat, hmaxy, hsel, hrec⟩ := move_char b _ b2 hb2
  have ht : t = b.top + b.cursor + r := by
    have h2 : some (b.top + b.cursor + r) = some t := by rw [← hraw]; rfl
    injection h2 with h2
    exact h2.symm
  subst ht
  have hsum : b2.top + b2.cursor
      = max (min (b.top + b.cursor + r) ((b.flat.length : Int) - 1)) 0 := by
    have hfst := congrArg Prod.fst hrec
    have hsnd := congrArg Prod.snd hrec
    simp only at hfst hsnd
    rw [hfst, hsnd, claimReconcile_sum]
  have hb1 : 0 ≤ b2.top + b2.cursor := by rw [hsum]; exact le_max_right _ _
  have hb2' : b2.top + b2.cursor ≤ (b.flat.length : Int) - 1 := by
    rw [hsum]
    refine max_le_iff.mpr ⟨min_le_right _ _, by omega⟩
  refine ⟨b2, hb2, hsum, hb1, hb2', row, ?_, hsel⟩
  rw [hsum]
  exact hrow

def c8node : OPMLNode := .audio none [] [] 0 0 [] []

def c8b : Browser := ⟨[(c8node, 0), (c8node, 1)], 0, 0, 5, c8node⟩

theorem c8_move_relative_witness :
    c8b.flat ≠ []
    ∧ ∃ b2, move c8b (.relArg 100) = some b2
      ∧ b2.top + b2.cursor
          = max (min (c8b.top + c8b.cursor + 100) ((c8b.flat.length : Int) - 1)) 0
      ∧ 0 ≤ b2.top + b2.cursor ∧ b2.top + b2.cursor ≤ (c8b.flat.length : Int) - 1
      ∧ ∃ row, pyGet c8b.flat (b2.top + b2.cursor) = some row ∧ b2.selected = row.1 :=
  ⟨by simp [c8b], c8_move_relative c8b 100 (by simp [c8b])⟩

theorem parentLoop_take_eq (ds : List Int) (cdepth : Int) :
    ∀ t0 : Nat, t0 ≤ ds.length →
      parentLoop ((ds.take t0).reverse) cdepth (t0 : Int) = specParentTarget ds cdepth t0 := by
  intro t0
  induction t0 with
  | zero => intro _; simp [parentLoop, specParentTarget]
  | succ j ih =>
      intro hle
      have hj : j < ds.length := by omega
      have hgetE : ds[j]? = some ds[j] := List.getElem?_eq_getElem hj
      have htake : (ds.take (j + 1)).reverse = ds[j] :: (ds.take j).reverse := by
        rw [List.take_succ, hgetE]
        simp
      rw [htake]
      have hpos : (0 : Int) ≤ ((j + 1 : Nat) : Int) := by positivity
      have hcast : ((j + 1 : Nat) : Int) - 1 = (j : Int) := by push_cast; ring
      have hgetD : ds.getD j 0 = ds[j] := by
        simp [List.getD_eq_get?, hgetE]
      simp only [parentLoop, hpos, if_true, hcast]
      simp only [specParentTarget, hgetD]
      by_cases hd : ds[j] = cdepth - 1
      · simp [hd]
      · simp only [hd, if_false, Bool.false_eq_true, ite_false]
        exact ih (by omega)

theorem specParentTarget_bounds (ds : List Int) (cdepth : Int) :
    ∀ t0 : Nat, 0 ≤ specParentTarget ds cdepth t0
      ∧ specParentTarget ds cdepth t0 ≤ max ((t0 : Int) - 1) 0 := by
  intro t0
  induction t0 with
  | zero => simp [specParentTarget]
  | succ j ih =>
      simp only [specParentTarget]
      split
      · refine ⟨by positivity, ?_⟩
        have : ((j + 1 : Nat) : Int) - 1 = (j : Int) := by push_cast; ring
        rw [this]
        exact le_max_left _ _
      · obtain ⟨ih1, ih2⟩ := ih
        refine ⟨ih1, le_trans ih2 ?_⟩
        have h1 : ((j : Nat) : Int) - 1 ≤ ((j + 1 : Nat) : Int) - 1 := by push_cast; omega
        omega

theorem specParentTarget_depth0 (ds : List Int) (hds : ∀ j : Nat, 0 ≤ ds.getD j 0) :
    ∀ t0 : Nat, specParentTarget ds 0 t0 = 0 := by
  intro t0
  induction t0 with
  | zero => rfl
  | succ j ih =>
      simp only [specParentTarget]
      have := hds j
      rw [if_neg (by omega)]
      exact ih

theorem depths_getD_nonneg (l : List (OPMLNode × Nat)) :
    ∀ j : Nat, 0 ≤ (l.map (fun p => ((p.2 : Nat) : Int))).getD j 0 := by
  induction l with
  | nil => intro j; simp [List.getD]
  | cons x xs ih =>
      intro j
      cases j with
      | zero => simp
      | succ k => simpa using ih k

/-- C7: `move(to="parent")` from the row at index `t0` (the current
`top + cursor`) whose depth is `currentDepth` lands on the target
computed by the claim's backward scan (`specParentTarget`): the first
(nearest preceding) row whose depth equals `currentDepth - 1`, and
index 0 when no such row exists — in particular a depth-0 row always
yields target 0. -/
theorem c7_move_parent (b : Browser) (t0 : Nat)
    (h1 : b.top + b.cursor = (t0 : Int)) (h2 : t0 < b.flat.length) :
    ∃ b2, move b .toParent = some b2 ∧
      b2.top + b2.cursor
        = specParentTarget (b.flat.map (fun p => ((p.2 : Nat) : Int)))
            ((b.flat.get ⟨t0, h2⟩).2 : Int) t0 ∧
      (((b.flat.get ⟨t0, h2⟩).2 : Int) = 0 → b2.top + b2.cursor = 0) := by
  have hne : b.flat ≠ [] := by
    intro hcon
    rw [hcon] at h2
    simp at h2
  have hlen : 0 < b.flat.length := List.length_pos.mpr hne
  have hlen2 : (1 : Int) ≤ (b.flat.length : Int) := by exact_mod_cast hlen
  have h0 : 0 ≤ b.top + b.cursor := by rw [h1]; positivity
  have h0' : b.top + b.cursor < (b.flat.length : Int) := by rw [h1]; exact_mod_cast h2
  obtain ⟨row0, hrow0, hget0⟩ := pyGet_pos b.flat (b.top + b.cursor) h0 h0'
  have htoNat : (b.top + b.cursor).toNat = t0 := by omega
  have hrow0' : row0 = b.flat.get ⟨t0, h2⟩ := by
    rw [htoNat, List.get?_eq_get h2] at hget0
    injection hget0 with hh
    exact hh.symm
  set ds := b.flat.map (fun p => ((p.2 : Nat) : Int)) with hds
  have hdslen : t0 ≤ ds.length := by
    rw [hds, List.length_map]
    omega
  have hraw : rawTarget b .toParent
      = some (specParentTarget ds ((b.flat.get ⟨t0, h2⟩).2 : Int) t0) := by
    simp only [rawTarget, hrow0]
    congr 1
    have hslice : pySliceTo b.flat (b.top + b.cursor) = b.flat.take t0 := by
      simp only [pySliceTo, h0, if_true]
      rw [htoNat]
    rw [hslice, hrow0', h1]
    rw [show (b.flat.take t0).map (fun p => ((p.2 : Nat) : Int)) = ds.take t0 by
      rw [hds, List.map_take]]
    exact parentLoop_take_eq ds _ t0 hdslen
  obtain ⟨b2, hb2⟩ := move_isSome b .toParent _ hraw hne
  obtain ⟨t, row, hraw2, hrow2, hflat, hmaxy, hsel, hrec⟩ := move_char b _ b2 hb2
  have htt : t = specParentTarget ds ((b.flat.get ⟨t0, h2⟩).2 : Int) t0 := by
    rw [hraw] at hraw2
    injection hraw2 with hh
    exact hh.symm
  subst htt
  obtain ⟨hsb1, hsb2⟩ := specParentTarget_bounds ds ((b.flat.get ⟨t0, h2⟩).2 : Int) t0
  have ht0len : (t0 : Int) ≤ (b.flat.length : Int) - 1 := by
    have := h2
    omega
  have hclamp : max (min (specParentTarget ds ((b.flat.get ⟨t0, h2⟩).2 : Int) t0)
      ((b.flat.length : Int) - 1)) 0
      = specParentTarget ds ((b.flat.get ⟨t0, h2⟩).2 : Int) t0 := by
    have hle : specParentTarget ds ((b.flat.get ⟨t0, h2⟩).2 : Int) t0
        ≤ (b.flat.length : Int) - 1 := le_trans hsb2 (by omega)
    omega
  have hsum : b2.top + b2.cursor = specParentTarget ds ((b.flat.get ⟨t0, h2⟩).2 : Int) t0 := by
    have hfst := congrArg Prod.fst hrec
    have hsnd := congrArg Prod.snd hrec
    simp only at hfst hsnd
    rw [hfst, hsnd, claimReconcile_sum, hclamp]
  refine ⟨b2, hb2, hsum, fun hz => ?_⟩
  rw [hsum, hz]
  exact specParentTarget_depth0 ds (fun j => by rw [hds]; exact depths_getD_nonneg b.flat j) t0

def c7b : Browser :=
  ⟨[(.outline none [] [] false, 0), (.outline none [] [] false, 1),
    (.audio none [] [] 0 0 [] [], 2)], 0, 2, 10, .audio none [] [] 0 0 [] []⟩

theorem c7_move_parent_witness :
    ∃ b2, move c7b .toParent = some b2 ∧
      b2.top + b2.cursor
        = specParentTarget (c7b.flat.map (fun p => ((p.2 : Nat) : Int)))
            ((c7b.flat.get ⟨2, by decide⟩).2 : Int) 2 ∧
      (((c7b.flat.get ⟨2, by decide⟩).2 : Int) = 0 → b2.top + b2.cursor = 0) :=
  c7_move_parent c7b 2 (by decide) (by decide)

def c6node : OPMLNode := .audio none [] [] 0 0 [] []

def c6b : Browser :=
  ⟨[(c6node, 0), (c6node, 0), (c6node, 0), (c6node, 0), (c6node, 0)], 0, 0, 5, c6node⟩

def c6bAfter : Browser := ⟨c6b.flat, 0, 4, 5, c6node⟩

/-- C6, counterexample to the claim as stated: with a screen of
`maxy = 5` total rows, the display slice `flat[top : top + maxy - 1]`
shows `maxy - 1 = 4` rows, so "the number of rows available for
display" is 4.  After `move(rel=4)` from `(top, cursor) = (0, 0)` on a
5-row list the code leaves `top = 0` and sets `cursor = 4` (the
condition it tests is `target > top + maxy - 1`, not
`target > top + viewportHeight - 1`), whereas the claim's formulas
with `viewportHeight = 4` would give `(top, cursor) = (2, 2)`; the
resulting cursorOffset 4 also violates the claimed invariant
`cursorOffset ∈ [0, viewportHeight - 1] = [0, 3]` (the selected row is
on the screen line the status bar occupies, outside the display
slice). -/
theorem c6_counterexample :
    move c6b (.relArg 4) = some c6bAfter
    ∧ c6bAfter.cursor = 4
    ∧ claimReconcile c6b.top (c6b.maxy - 1) 4 = (2, 2)
    ∧ (c6bAfter.top, c6bAfter.cursor) ≠ claimReconcile c6b.top (c6b.maxy - 1) 4
    ∧ ¬ (c6bAfter.cursor ≤ (c6b.maxy - 1) - 1) :=
  ⟨rfl, rfl, by decide, by decide, by decide⟩

/-- C6 (amended): after any successful move operation the viewport is
reconciled by the claim's formulas taken with `viewportHeight = maxy`,
the total screen height — which is one more than the `maxy - 1` rows
the display slice `flat[top : top + maxy - 1]` actually shows — and
the invariants hold in that form: `cursorOffset ∈ [0, maxy - 1]` and
`topIndex ≤ topIndex + cursorOffset ≤ topIndex + maxy - 1`. -/
theorem c6_viewport (b : Browser) (arg : MoveArg) (b2 : Browser)
    (hmaxy : 2 ≤ b.maxy) (h : move b arg = some b2) :
    (∃ t, rawTarget b arg = some t ∧
      (b2.top, b2.cursor) = claimReconcile b.top b.maxy
        (max (min t ((b.flat.length : Int) - 1)) 0))
    ∧ 0 ≤ b2.cursor ∧ b2.cursor ≤ b.maxy - 1
    ∧ b2.top ≤ b2.top + b2.cursor ∧ b2.top + b2.cursor ≤ b2.top + b.maxy - 1 := by
  obtain ⟨t, row, hraw, hrow, hflat, hmaxy2, hsel, hrec⟩ := move_char b arg b2 h
  have hsnd := congrArg Prod.snd hrec
  simp only at hsnd
  obtain ⟨hb1, hb2⟩ :=
    claimReconcile_cursor_bounds b.top b.maxy (max (min t ((b.flat.length : Int) - 1)) 0) hmaxy
  rw [← hsnd] at hb1 hb2
  exact ⟨⟨t, hraw, hrec⟩, hb1, hb2, by omega, by omega⟩

theorem c6_viewport_witness :
    (∃ t, rawTarget c6b .toStart = some t ∧
      (c6b.top, c6b.cursor) = claimReconcile c6b.top c6b.maxy
        (max (min t ((c6b.flat.length : Int) - 1)) 0))
    ∧ 0 ≤ c6b.cursor ∧ c6b.cursor ≤ c6b.maxy - 1
    ∧ c6b.top ≤ c6b.top + c6b.cursor ∧ c6b.top + c6b.cursor ≤ c6b.top + c6b.maxy - 1 :=
  c6_viewport c6b .toStart c6b (by decide) rfl
